import Mathlib

/-!
Verification of the igloo-mcp content-conversion and windowed-pagination
pipeline (`igloo_mcp/converter.py`): a shallow embedding of the smart
truncator, code-fence balancer, ATX-header indexer, section extractor,
offset/continuation controller and HTML sanitizer passes, together with
theorems settling the specification's claims about them.

Strings are modelled as `List Char` (Python strings are sequences of code
points with integer indexing).  Helper functions named `py...` model the
Python builtins (`str.rfind`, slicing, `str.strip`, ...) on that type.
-/

namespace Igloo

/-- Decidable equality for `Except`, used to evaluate results on concrete
inputs. -/
instance {ε α : Type} [DecidableEq ε] [DecidableEq α] :
    DecidableEq (Except ε α)
  | .ok a, .ok b =>
    if h : a = b then .isTrue (h ▸ rfl)
    else .isFalse fun hc => h (Except.ok.inj hc)
  | .error a, .error b =>
    if h : a = b then .isTrue (h ▸ rfl)
    else .isFalse fun hc => h (Except.error.inj hc)
  | .ok _, .error _ => .isFalse nofun
  | .error _, .ok _ => .isFalse nofun

/-- Python whitespace predicate: the characters matched by the regex class
`\s` (ASCII) and stripped by `str.strip()`. -/
def pySpace (c : Char) : Bool :=
  c == ' ' || c == '\t' || c == '\n' || c == '\r' || c == '\x0b' || c == '\x0c'

/-- Python `s[a:b]` for `0 ≤ a ≤ b` (out-of-range slice bounds clip). -/
def pySlice (s : List Char) (a b : Nat) : List Char := (s.take b).drop a

/-- Python `str.lstrip()` (no argument): drop leading whitespace. -/
def pyLstrip (s : List Char) : List Char := s.dropWhile pySpace

/-- Python `str.rstrip()` (no argument): drop trailing whitespace. -/
def pyRstrip (s : List Char) : List Char := (s.reverse.dropWhile pySpace).reverse

/-- Python `str.strip()` (no argument): drop whitespace at both ends. -/
def pyStrip (s : List Char) : List Char := pyRstrip (pyLstrip s)

/-- Python `str.lower()` (ASCII case folding suffices for this code base). -/
def pyLower (s : List Char) : List Char := s.map Char.toLower

/-- `pat` occurs in `s` starting at index `i` (the occurrence lies entirely
inside `s`). -/
def occursAtB (s pat : List Char) (i : Nat) : Bool :=
  ((s.drop i).take pat.length == pat) && decide (i + pat.length ≤ s.length)

/-- The greatest `k < n` with `P k = true`, if any: last element of the
filtered range. -/
def greatest? (P : Nat → Bool) (n : Nat) : Option Nat :=
  ((List.range n).filter P).getLast?

/-- Python `s.rfind(pat)`: the greatest index at which `pat` occurs in `s`
(`none` models the `-1` "not found" result). -/
def pyRfind (s pat : List Char) : Option Nat :=
  greatest? (occursAtB s pat) (s.length + 1)

/-- `pat` occurs somewhere in `s` (Python `pat in s`). -/
def listContainsSub (s pat : List Char) : Bool :=
  (List.range (s.length + 1)).any (occursAtB s pat)

/-- The backquote character, written via its code point. -/
def backquote : Char := Char.ofNat 96

/-- Python `content.count(x)` for the three-backquote fence marker `x`:
non-overlapping occurrences counted left to right. -/
def countFences : List Char → Nat
  | a :: b :: c :: rest =>
    if a == backquote && b == backquote && c == backquote then
      countFences rest + 1
    else
      countFences (b :: c :: rest)
  | _ => 0

/-- Source constant `DEFAULT_TRUNCATION_WINDOW_RATIO = 0.15` (converter.py
line 61), given in reduced form so that it evaluates by kernel reduction
(`defaultWindowRatio_eq` below checks it equals `15/100`). -/
def defaultWindowRatio : ℚ := ⟨3, 20, by decide, by decide⟩

/-- Python `int(a * q)` for a natural `a` and rational `q`, computed as
integer division `a * q.num / q.den` (floor division by the positive
denominator).  For the nonnegative products arising here — every claim
uses a ratio in `(0,1)` — floor and Python's toward-zero truncation
coincide. -/
def pyIntMul (a : Nat) (q : ℚ) : Nat :=
  (((a : Int) * q.num) / (q.den : Int)).toNat

/-- The default ratio is the source's `0.15`. -/
theorem defaultWindowRatio_eq :
    defaultWindowRatio = 15 / 100 := by
  simp only [defaultWindowRatio]
  rw [Rat.mk'_eq_divInt, Rat.divInt_eq_div]
  norm_num

/-- Source `find_smart_truncation_point(markdown, max_length, window_ratio)`
(converter.py lines 84-130).  `window_size = int(max_length * window_ratio)`
is `pyIntMul`; `max(0, max_length - window_size)` is Nat subtraction. -/
def find_smart_truncation_point (markdown : List Char) (max_length : Nat)
    (window_ratio : ℚ) : Nat :=
  let window_size : Nat := pyIntMul max_length window_ratio
  let search_start : Nat := max_length - window_size
  let search_region : List Char := pySlice markdown search_start max_length
  match pyRfind search_region ['\n', '\n'] with
  | some para_pos => search_start + para_pos + 2
  | none =>
  match pyRfind search_region ['\n'] with
  | some line_pos => search_start + line_pos + 1
  | none =>
  match pyRfind search_region ['.', ' '] with
  | some sent_pos => search_start + sent_pos + 2
  | none =>
  match pyRfind search_region ['!', ' '] with
  | some sent_pos => search_start + sent_pos + 2
  | none =>
  match pyRfind search_region ['?', ' '] with
  | some sent_pos => search_start + sent_pos + 2
  | none =>
  match pyRfind search_region [' '] with
  | some word_pos => search_start + word_pos + 1
  | none => max_length

/-! ### ATX header matching

The source scans Markdown with the Python regex
`^(#{1,6})\s+(.+?)(?:\s*#*)?$` in MULTILINE mode (converter.py lines 167
and 374).  The functions below implement exactly the semantics of that
pattern under Python's backtracking order:

* `^` matches at offset 0 or right after a newline;
* `#{1,6}` with a following `\s+` matches iff the maximal run of `#` at
  the position has length 1-6 (for a shorter prefix of a longer run the
  next character is `#`, which is not whitespace, so `\s+` fails);
* `\s+` is greedy (longest first, giving back on failure) and may contain
  newlines;
* `(.+?)` is lazy (shortest first) and its characters exclude newlines;
* the optional `(?:\s*#*)?` group is tried greedily, `\s*` longest first,
  then `#*` longest first;
* `$` matches at the end of the string or immediately before a newline.

The first solution in this order determines group 2 and the match end, and
`finditer` resumes scanning at the match end. -/

/-- `[n, n-1, ..., 0]`. -/
def descList : Nat → List Nat
  | 0 => [0]
  | n + 1 => (n + 1) :: descList n

/-- `[n, n-1, ..., 1]` (empty for `n = 0`). -/
def descList1 : Nat → List Nat
  | 0 => []
  | n + 1 => (n + 1) :: descList1 n

/-- `[1, 2, ..., n]`. -/
def ascList1 (n : Nat) : List Nat := (List.range n).map (· + 1)

/-- Length of the maximal run of `#` characters at offset `p`. -/
def hashRunAt (s : List Char) (p : Nat) : Nat :=
  ((s.drop p).takeWhile (· == '#')).length

/-- Length of the maximal run of whitespace characters at offset `p`. -/
def wsRunAt (s : List Char) (p : Nat) : Nat :=
  ((s.drop p).takeWhile pySpace).length

/-- Length of the maximal run of non-newline characters at offset `p`. -/
def nonNlRunAt (s : List Char) (p : Nat) : Nat :=
  ((s.drop p).takeWhile (fun c => !(c == '\n'))).length

/-- `^` in MULTILINE mode: offset 0 or right after a newline. -/
def isLineStart (s : List Char) (p : Nat) : Bool :=
  p == 0 || s.get? (p - 1) == some '\n'

/-- `$` in MULTILINE mode: end of string or immediately before a newline. -/
def isDollar (s : List Char) (e : Nat) : Bool :=
  e == s.length || s.get? e == some '\n'

/-- Match `(?:\s*#*)?$` at `pos2`: `\s*` then `#*`, both greedy with
backtracking (the absent branch coincides with the `(0,0)` choice).
Returns the match end. -/
def tryCD (s : List Char) (pos2 : Nat) : Option Nat :=
  (descList (wsRunAt s pos2)).findSome? fun c =>
    (descList (hashRunAt s (pos2 + c))).findSome? fun d =>
      if isDollar s (pos2 + c + d) then some (pos2 + c + d) else none

/-- Match `(.+?)(?:\s*#*)?$` at `pos1`: lazy `.+?` of length `b ≥ 1`,
shortest first.  Returns `(b, match end)`. -/
def tryB (s : List Char) (pos1 : Nat) : Option (Nat × Nat) :=
  (ascList1 (nonNlRunAt s pos1)).findSome? fun b =>
    (tryCD s (pos1 + b)).map fun e => (b, e)

/-- Match `\s+(.+?)(?:\s*#*)?$` at `q`: greedy `\s+` of length `a ≥ 1`,
longest first.  Returns `(a, b, match end)`. -/
def tryA (s : List Char) (q : Nat) : Option (Nat × Nat × Nat) :=
  (descList1 (wsRunAt s q)).findSome? fun a =>
    (tryB s (q + a)).map fun be => (a, be.1, be.2)

/-- Match the whole header pattern at offset `p`.  Returns
`(level, raw group 2, match end)` on success. -/
def matchHeadingAt (s : List Char) (p : Nat) : Option (Nat × List Char × Nat) :=
  if isLineStart s p then
    let run := hashRunAt s p
    if 1 ≤ run && run ≤ 6 then
      match tryA s (p + run) with
      | some (a, b, e) => some (run, pySlice s (p + run + a) (p + run + a + b), e)
      | none => none
    else none
  else none

/-- `finditer` scan: try each offset in turn, resuming after each match.
`fuel` bounds the recursion; `scanHeadings s (s.length + 1) 0` performs the
complete scan.  Yields `(level, start, raw group 2, end)` quadruples. -/
def scanHeadings (s : List Char) : Nat → Nat → List (Nat × Nat × List Char × Nat)
  | 0, _ => []
  | fuel + 1, p =>
    if s.length ≤ p then []
    else
      match matchHeadingAt s p with
      | some (lvl, raw, e) => (lvl, p, raw, e) :: scanHeadings s fuel e
      | none => scanHeadings s fuel (p + 1)

/-- All matches of the header pattern, in document order. -/
def findHeadingsFull (s : List Char) : List (Nat × Nat × List Char × Nat) :=
  scanHeadings s (s.length + 1) 0

/-- Source `extract_section_headers(markdown)` (converter.py lines 152-174):
`(header_text, start_offset)` pairs, text stripped. -/
def extract_section_headers (markdown : List Char) : List (List Char × Nat) :=
  (findHeadingsFull markdown).map fun q => (pyStrip q.2.2.1, q.2.1)

/-- The header quadruples `(level, start, text, end)` built inside
`extract_section` (converter.py lines 374-382), text stripped. -/
def sectionHeaders (markdown : List Char) : List (Nat × Nat × List Char × Nat) :=
  (findHeadingsFull markdown).map fun q => (q.1, q.2.1, pyStrip q.2.2.1, q.2.2.2)

/-- The literal `"\n```\n[Code block truncated]"` appended by
`balance_code_fences` when the fence count is odd. -/
def fenceCloser : List Char := "\n```\n[Code block truncated]".toList

/-- Source `balance_code_fences(content)` (converter.py lines 133-149). -/
def balance_code_fences (content : List Char) : List Char :=
  if countFences content % 2 == 1 then content ++ fenceCloser else content

/-! ### Section extraction -/

/-- Source `SectionNotFoundError` (converter.py lines 337-349): carries the
requested name and the ordered list of available heading texts. -/
structure SectionNotFoundError where
  section_name : List Char
  available_sections : List (List Char)
deriving DecidableEq, Repr

/-- The search loop of `extract_section` (converter.py lines 388-392): first
header whose lowercased text equals the key; returns its level, start and
the remaining headers after it. -/
def findTarget (key : List Char) :
    List (Nat × Nat × List Char × Nat) →
    Option (Nat × Nat × List (Nat × Nat × List Char × Nat))
  | [] => none
  | h :: rest =>
    if pyLower h.2.2.1 == key then some (h.1, h.2.1, rest) else findTarget key rest

/-- The section-end loop of `extract_section` (converter.py lines 400-405):
start offset of the first later header of level `≤ lvl`, else `dflt`. -/
def findSectionEnd (lvl dflt : Nat) : List (Nat × Nat × List Char × Nat) → Nat
  | [] => dflt
  | h :: rest => if h.1 ≤ lvl then h.2.1 else findSectionEnd lvl dflt rest

/-- Source `extract_section(markdown, section_name)` (converter.py lines
352-410). -/
def extract_section (markdown section_name : List Char) :
    Except SectionNotFoundError (List Char × Nat) :=
  let normalized_search := pyLower (pyStrip (section_name.dropWhile (· == '#')))
  let headers := sectionHeaders markdown
  let available_sections := headers.map fun h => h.2.2.1
  match findTarget normalized_search headers with
  | none => .error ⟨section_name, available_sections⟩
  | some (target_level, target_start, rest) =>
    let section_end := findSectionEnd target_level markdown.length rest
    .ok (pyRstrip (pySlice markdown target_start section_end), target_start)

/-! ### Conversion controller

`convert_html_to_markdown` (converter.py lines 413-507) first runs the
external `BeautifulSoup`/`html_to_markdown` libraries (steps 1-3) to render
the HTML into a Markdown string, then performs offset validation, slicing
and truncation (steps 4-5) on that string.  Steps 1-3 are third-party
library calls, deterministic in the input HTML; the controller below is
the faithful embedding of steps 4-5, parameterised by the rendered
Markdown document. -/

/-- The `status` literal of `TruncationMetadata`; `.truncated` models the
Python string `"partial"` and `.complete` models `"complete"`. -/
inductive TStatus where
  | complete : TStatus
  | truncated : TStatus
deriving DecidableEq, Repr

/-- Source `TruncationMetadata` dataclass (converter.py lines 64-73). -/
structure TruncationMetadata where
  status : TStatus
  chars_returned : Nat
  chars_total : Nat
  next_start_index : Option Nat
  current_path : Option (List Char)
  remaining_sections : List (List Char)
deriving DecidableEq, Repr

/-- Source `ConversionResult` dataclass (converter.py lines 76-81). -/
structure ConversionResult where
  content : List Char
  metadata : Option TruncationMetadata
deriving DecidableEq, Repr

/-- Source `OffsetError` (converter.py lines 324-334): carries the offending
index and the document length. -/
structure OffsetError where
  start_index : Int
  document_length : Nat
deriving DecidableEq, Repr

/-- Source `_get_current_section_path(headers, truncation_point)`
(converter.py lines 177-197): text of the last header strictly before the
truncation point (the source's two `None` early returns coincide with
`getLast?` of the filtered list being `none`). -/
def getCurrentSectionPath (headers : List (List Char × Nat)) (tp : Nat) :
    Option (List Char) :=
  ((headers.filter fun h => h.2 < tp).getLast?).map fun h => h.1

/-- Source `_get_remaining_sections(headers, truncation_point)`
(converter.py lines 200-213): texts of headers at or after the truncation
point, first 5. -/
def getRemainingSections (headers : List (List Char × Nat)) (tp : Nat) :
    List (List Char) :=
  ((headers.filter fun h => tp ≤ h.2).map fun h => h.1).take 5

/-- The no-truncation result (converter.py lines 492-507): `complete`
metadata when the call was made with a positive `start_index`, absent
metadata otherwise. -/
def completeResult (markdown : List Char) (total_length : Nat)
    (started : Bool) : ConversionResult :=
  if started then
    ⟨markdown, some ⟨.complete, markdown.length, total_length, none, none, []⟩⟩
  else ⟨markdown, none⟩

/-- The truncating result (converter.py lines 463-490). -/
def truncatedResult (markdown : List Char) (total_length effective_start : Nat)
    (ml : Nat) (ratio : ℚ) : ConversionResult :=
  let headers := extract_section_headers markdown
  let truncation_point := find_smart_truncation_point markdown ml ratio
  let truncated := balance_code_fences (markdown.take truncation_point)
  ⟨truncated,
    some ⟨.truncated, truncated.length, total_length,
      some (effective_start + truncation_point),
      getCurrentSectionPath headers truncation_point,
      getRemainingSections headers truncation_point⟩⟩

/-- Steps 4-5 of `convert_html_to_markdown` on the already-sliced text. -/
def convertCore (markdown : List Char) (total_length effective_start : Nat)
    (started : Bool) (max_length : Option Nat) (ratio : ℚ) : ConversionResult :=
  match max_length with
  | some ml =>
    if ml < markdown.length then
      truncatedResult markdown total_length effective_start ml ratio
    else completeResult markdown total_length started
  | none => completeResult markdown total_length started

/-- `convert_html_to_markdown(html, max_length, truncation_window_ratio,
start_index)` (converter.py lines 413-507), parameterised by the rendered
Markdown document `markdown0` produced by its steps 1-3. -/
def convert_from_markdown (markdown0 : List Char) (max_length : Option Nat)
    (ratio : ℚ) (start_index : Option Int) :
    Except OffsetError ConversionResult :=
  let total_length := markdown0.length
  match start_index with
  | none => .ok (convertCore markdown0 total_length 0 false max_length ratio)
  | some si =>
    if si < 0 || (total_length : Int) ≤ si then .error ⟨si, total_length⟩
    else
      .ok (convertCore (markdown0.drop si.toNat) total_length si.toNat
        (decide (0 < si)) max_length ratio)

/-- The continuation cursor of a result: `metadata.next_start_index`. -/
def nextCursor (r : ConversionResult) : Option Nat :=
  match r.metadata with
  | some m => m.next_start_index
  | none => none

/-- The resume-until-complete loop of §8 of the spec: call
`convert_from_markdown`, then keep calling with `start_index` set to the
previous call's `next_start_index` until it is absent.  `fuel` bounds the
recursion; fuel `markdown0.length + 1` suffices for `max_length ≥ 1`. -/
def resumeFrom (doc : List Char) (ml : Nat) (ratio : ℚ) :
    Nat → Option Nat → List ConversionResult
  | 0, _ => []
  | fuel + 1, si =>
    match convert_from_markdown doc (some ml) ratio (si.map Int.ofNat) with
    | .error _ => []
    | .ok r =>
      match nextCursor r with
      | some n => r :: resumeFrom doc ml ratio fuel (some n)
      | none => [r]

/-- The successive raw document slices cut by the resume loop, before fence
balancing: ghost companion of `resumeFrom`. -/
def sliceSeq (doc : List Char) (ml : Nat) (ratio : ℚ) :
    Nat → Nat → List (List Char)
  | 0, _ => []
  | fuel + 1, s =>
    if ml < (doc.drop s).length then
      let tp := find_smart_truncation_point (doc.drop s) ml ratio
      (doc.drop s).take tp :: sliceSeq doc ml ratio fuel (s + tp)
    else [doc.drop s]

/-- Apply `balance_code_fences` to every slice except the last (the final,
complete slice is returned unbalanced by the controller). -/
def balanceInit : List (List Char) → List (List Char)
  | [] => []
  | [x] => [x]
  | x :: y :: t => balance_code_fences x :: balanceInit (y :: t)

/-! ### HTML sanitizer

`sanitize_html` (converter.py lines 216-252) parses the HTML with
BeautifulSoup (an external library) and then runs four removal passes over
the element tree: deny-listed tags, deny-listed class tokens, first-match
deny-listed ids, and `display:none` styles; finally it serialises the
remaining tree.  The tree and the four passes are modelled below; parsing
and the exact serialisation syntax belong to the external library, so the
model works on parsed trees and a structural serialiser. -/

/-- A parsed HTML node: text, or an element with tag name, class token
list, optional id, optional inline style, and children. -/
inductive HNode where
  | text : List Char → HNode
  | elem : List Char → List (List Char) → Option (List Char) →
      Option (List Char) → List HNode → HNode

/-- Source constant `UNWANTED_TAGS` (converter.py lines 11-25). -/
def UNWANTED_TAGS : List (List Char) :=
  ["script", "style", "nav", "footer", "aside", "header", "noscript",
    "iframe", "form", "svg", "canvas", "video", "audio"].map String.toList

/-- Source constant `UNWANTED_CLASSES` (converter.py lines 28-47). -/
def UNWANTED_CLASSES : List (List Char) :=
  ["sidebar", "navigation", "nav", "footer", "header", "menu", "ad",
    "advertisement", "social", "share", "comment", "comments", "related",
    "recommended", "popup", "modal", "cookie", "banner"].map String.toList

/-- Source constant `UNWANTED_IDS` (converter.py lines 50-58). -/
def UNWANTED_IDS : List (List Char) :=
  ["sidebar", "nav", "navigation", "footer", "header", "menu",
    "comments"].map String.toList

/-- An element-local predicate on (tag, classes, id, style). -/
def HPred : Type :=
  List Char → List (List Char) → Option (List Char) → Option (List Char) → Bool

mutual

/-- Remove (`element.decompose()`) every element matching `P`, together
with its subtree: the effect of one `find_all`/`decompose` loop. -/
def filterNode (P : HPred) : HNode → Option HNode
  | .text s => some (.text s)
  | .elem t cs i st ch =>
    if P t cs i st then none else some (.elem t cs i st (filterNodes P ch))

/-- `filterNode` mapped over a forest. -/
def filterNodes (P : HPred) : List HNode → List HNode
  | [] => []
  | n :: ns =>
    match filterNode P n with
    | some m => m :: filterNodes P ns
    | none => filterNodes P ns

end

mutual

/-- `soup.find(id=target)` + `decompose()`: remove the first element in
depth-first pre-order (document order) whose id equals `target`.  Returns
the new node (or `none` if this node was removed) and whether a removal
happened. -/
def removeFirstNode (target : List Char) : HNode → Option HNode × Bool
  | .text s => (some (.text s), false)
  | .elem t cs i st ch =>
    if i == some target then (none, true)
    else
      let r := removeFirstNodes target ch
      (some (.elem t cs i st r.1), r.2)

/-- `removeFirstNode` over a forest, left to right, stopping at the first
removal. -/
def removeFirstNodes (target : List Char) : List HNode → List HNode × Bool
  | [] => ([], false)
  | n :: ns =>
    match removeFirstNode target n with
    | (some m, true) => (m :: ns, true)
    | (none, true) => (ns, true)
    | (_, false) =>
      let r := removeFirstNodes target ns
      (n :: r.1, r.2)

end

/-- Tag deny-list predicate: `soup.find_all(tag_name)`. -/
def tagPred (name : List Char) : HPred := fun t _ _ _ => t == name

/-- Class deny-list predicate: `soup.find_all(class_=class_name)` matches
elements whose class token list contains the token. -/
def classPred (name : List Char) : HPred := fun _ cs _ _ => cs.contains name

/-- Hidden-element predicate: elements whose `style` attribute, with spaces
removed, contains `display:none` (converter.py lines 247-250). -/
def stylePred : HPred := fun _ _ _ st =>
  match st with
  | some v => listContainsSub (v.filter fun c => !(c == ' ')) "display:none".toList
  | none => false

/-- The tag removal pass (converter.py lines 230-233). -/
def tagsPass (l : List HNode) : List HNode :=
  UNWANTED_TAGS.foldl (fun acc nm => filterNodes (tagPred nm) acc) l

/-- The class removal pass (converter.py lines 235-238). -/
def classesPass (l : List HNode) : List HNode :=
  UNWANTED_CLASSES.foldl (fun acc nm => filterNodes (classPred nm) acc) l

/-- The id removal pass (converter.py lines 240-244): per id, only the
first match in document order is removed. -/
def idsPass (l : List HNode) : List HNode :=
  UNWANTED_IDS.foldl (fun acc nm => (removeFirstNodes nm acc).1) l

/-- The hidden-element removal pass (converter.py lines 246-250). -/
def stylesPass (l : List HNode) : List HNode :=
  filterNodes stylePred l

/-- `sanitize_html` after parsing: the four passes in source order. -/
def sanitize_tree (l : List HNode) : List HNode :=
  stylesPass (idsPass (classesPass (tagsPass l)))

/-- Serialisation of the attributes of an element. -/
def serializeAttrs (cs : List (List Char)) (i st : Option (List Char)) :
    List Char :=
  (cs.foldr (fun c acc => ' ' :: c ++ acc) []) ++
  (match i with | some v => ' ' :: v | none => []) ++
  (match st with | some v => ' ' :: v | none => [])

mutual

/-- Structural serialisation of a node (`str(soup)` analogue). -/
def serializeNode : HNode → List Char
  | .text s => s
  | .elem t cs i st ch =>
    '<' :: t ++ serializeAttrs cs i st ++ '>' :: serializeNodes ch
      ++ '<' :: '/' :: t ++ ['>']

/-- Serialisation of a forest. -/
def serializeNodes : List HNode → List Char
  | [] => []
  | n :: ns => serializeNode n ++ serializeNodes ns

end

/-! ### Specification-side definitions

The following definitions are written from the specification's and claims'
words (not from the source); the refinement theorems compare them with the
source embeddings above. -/

/-- Spec 4.5: the last occurrence of boundary `pat` inside the window
`[lo, hi)` of `md` — the greatest offset `j ≥ lo` at which `pat` occurs in
`md` with the occurrence contained in the window (`j + |pat| ≤ hi`). -/
def lastBoundarySpec (md : List Char) (lo hi : Nat) (pat : List Char) :
    Option Nat :=
  greatest?
    (fun j => decide (lo ≤ j) && decide (j + pat.length ≤ hi) && occursAtB md pat j)
    hi

/-- Spec 4.5 `find_cut`, written from the claim's words: search the window
`[max(0, max_length - int(window_ratio*max_length)), max_length)` for the
last occurrence of each boundary type in strict priority order — paragraph
break, line break, sentence ends in order, single space — returning the
offset immediately after the first boundary type found, else `max_length`
verbatim. -/
def smartCutSpec (markdown : List Char) (max_length : Nat)
    (window_ratio : ℚ) : Nat :=
  let window_start := max_length - pyIntMul max_length window_ratio
  match lastBoundarySpec markdown window_start max_length ['\n', '\n'] with
  | some j => j + 2
  | none =>
  match lastBoundarySpec markdown window_start max_length ['\n'] with
  | some j => j + 1
  | none =>
  match lastBoundarySpec markdown window_start max_length ['.', ' '] with
  | some j => j + 2
  | none =>
  match lastBoundarySpec markdown window_start max_length ['!', ' '] with
  | some j => j + 2
  | none =>
  match lastBoundarySpec markdown window_start max_length ['?', ' '] with
  | some j => j + 2
  | none =>
  match lastBoundarySpec markdown window_start max_length [' '] with
  | some j => j + 1
  | none => max_length

/-- Claim C4's description of `extract_section`, written from its words:
normalise the name (strip leading `#`, strip whitespace, lowercase), find
the first heading in document order whose lowercased text matches exactly;
the section runs from that heading's offset to the offset of the next
heading of level `≤` the matched level (or document end), right-trimmed;
on failure report the original name and the full ordered heading list. -/
def extractSectionSpec (markdown section_name : List Char) :
    Except SectionNotFoundError (List Char × Nat) :=
  let norm := pyLower (pyStrip (section_name.dropWhile (· == '#')))
  let headers := sectionHeaders markdown
  match headers.dropWhile (fun h => !(pyLower h.2.2.1 == norm)) with
  | [] => .error ⟨section_name, headers.map fun h => h.2.2.1⟩
  | target :: after =>
    let stop :=
      (((after.find? fun h => h.1 ≤ target.1).map fun h => h.2.1).getD
        markdown.length)
    .ok (pyRstrip (pySlice markdown target.2.1 stop), target.2.1)

/-- One line of claim C9's heading description: a line recognised as a
heading begins with 1-6 `#`, then whitespace, then text on that same line;
trailing `#` characters are stripped and the text is trimmed. -/
def lineHeadingText (line : List Char) : Option (List Char) :=
  let run := (line.takeWhile (· == '#')).length
  if 1 ≤ run && run ≤ 6 then
    let rest := (line.drop run).dropWhile pySpace
    if (line.drop run).takeWhile pySpace == [] then none
    else if rest == [] then none
    else some (pyStrip (rest.reverse.dropWhile (· == '#')).reverse)
  else none

/-- The lines of `s` (split on newline, final fragment included) with
their start offsets: `acc` is the current line read so far (reversed),
`start` its start offset, `cur` the offset of the next character. -/
def splitLinesAux : List Char → List Char → Nat → Nat →
    List (List Char × Nat)
  | [], acc, start, _ => [(acc.reverse, start)]
  | c :: t, acc, start, cur =>
    if c == '\n' then
      (acc.reverse, start) :: splitLinesAux t [] (cur + 1) (cur + 1)
    else
      splitLinesAux t (c :: acc) start (cur + 1)

/-- Claim C9's line-anchored heading index, written from its words:
exactly the lines that begin with 1-6 `#` then whitespace then text on
that line, in document order, offset at the start of the `#` run. -/
def lineHeadingsSpec (s : List Char) : List (List Char × Nat) :=
  (splitLinesAux s [] 0 0).filterMap fun p =>
    (lineHeadingText p.1).map fun tx => (tx, p.2)

/-! ### Lemmas: `greatest?` and `pyRfind` -/

theorem greatest?_iff (P : Nat → Bool) (n k : Nat) :
    greatest? P n = some k ↔
      P k = true ∧ k < n ∧ ∀ j, j < n → P j = true → j ≤ k := by
  induction n with
  | zero => simp [greatest?]
  | succ n ih =>
    unfold greatest?
    rw [List.range_succ, List.filter_append]
    by_cases hP : P n = true
    · simp only [List.filter_cons, List.filter_nil, hP, if_pos, if_true]
      rw [List.getLast?_concat]
      constructor
      · intro h
        have hnk := Option.some.inj h
        subst hnk
        exact ⟨hP, Nat.lt_succ_self _, fun j hj _ => Nat.lt_succ_iff.mp hj⟩
      · rintro ⟨hk, hkn, hmax⟩
        have := hmax n (Nat.lt_succ_self n) hP
        have : k = n := Nat.le_antisymm (Nat.lt_succ_iff.mp hkn) this
        simp [this]
    · simp only [List.filter_cons, List.filter_nil, hP]
      simp only [Bool.false_eq_true, if_false, List.append_nil]
      rw [show ((List.range n).filter P).getLast? = greatest? P n from rfl, ih]
      constructor
      · rintro ⟨hk, hkn, hmax⟩
        exact ⟨hk, Nat.lt_succ_of_lt hkn,
          fun j hj hPj => by
            rcases Nat.lt_succ_iff_lt_or_eq.mp hj with h | h
            · exact hmax j h hPj
            · subst h; exact absurd hPj hP⟩
      · rintro ⟨hk, hkn, hmax⟩
        have hkn' : k < n := by
          rcases Nat.lt_succ_iff_lt_or_eq.mp hkn with h | h
          · exact h
          · subst h; exact absurd hk hP
        exact ⟨hk, hkn', fun j hj hPj => hmax j (Nat.lt_succ_of_lt hj) hPj⟩

theorem greatest?_none_iff (P : Nat → Bool) (n : Nat) :
    greatest? P n = none ↔ ∀ j, j < n → P j = false := by
  unfold greatest?
  rw [List.getLast?_eq_none_iff]
  rw [List.filter_eq_nil_iff]
  constructor
  · intro h j hj
    by_contra hc
    exact h j (List.mem_range.mpr hj) (by simpa using hc)
  · intro h j hj
    simp [h j (List.mem_range.mp hj)]

theorem pyRfind_some (s pat : List Char) (p : Nat)
    (h : pyRfind s pat = some p) :
    occursAtB s pat p = true ∧ p + pat.length ≤ s.length ∧
      ∀ j, occursAtB s pat j = true → j ≤ p := by
  rcases (greatest?_iff _ _ _).mp h with ⟨hP, _, hmax⟩
  have hlen : p + pat.length ≤ s.length := by
    have := hP
    unfold occursAtB at this
    exact of_decide_eq_true (Bool.and_elim_right this)
  refine ⟨hP, hlen, fun j hj => ?_⟩
  have hjlen : j + pat.length ≤ s.length := by
    unfold occursAtB at hj
    exact of_decide_eq_true (Bool.and_elim_right hj)
  exact hmax j (by omega) hj

theorem pyRfind_none (s pat : List Char)
    (h : pyRfind s pat = none) :
    ∀ j, occursAtB s pat j = false := by
  intro j
  by_cases hj : occursAtB s pat j = true
  · have hjlen : j + pat.length ≤ s.length := by
      unfold occursAtB at hj
      exact of_decide_eq_true (Bool.and_elim_right hj)
    have := (greatest?_none_iff _ _).mp h j (by omega)
    rw [this] at hj
    exact absurd hj (by simp)
  · simpa using hj

/-! ### Lemmas: occurrences in a slice, truncation-point bounds -/

theorem occursAtB_slice (md pat : List Char) (lo hi i : Nat)
    (hpat : 1 ≤ pat.length) :
    occursAtB (pySlice md lo hi) pat i = true ↔
      lo + i + pat.length ≤ hi ∧ occursAtB md pat (lo + i) = true := by
  have hmin1 : (hi - lo) ⊓ (md.length - lo) ≤ hi - lo := Nat.min_le_left _ _
  have hmin2 : (hi - lo) ⊓ (md.length - lo) ≤ md.length - lo :=
    Nat.min_le_right _ _
  unfold occursAtB pySlice
  simp only [List.drop_drop, List.drop_take, List.take_take, List.length_drop,
    List.length_take, Bool.and_eq_true, beq_iff_eq, decide_eq_true_eq]
  constructor
  · rintro ⟨hteq, hlen⟩
    have hmineq : pat.length ⊓ (hi - lo - i) = pat.length :=
      Nat.min_eq_left (by omega)
    rw [hmineq] at hteq
    exact ⟨by omega, hteq, by omega⟩
  · rintro ⟨hhi, hteq, hmd⟩
    have hmm : i + pat.length ≤ (hi - lo) ⊓ (md.length - lo) :=
      Nat.le_min.mpr ⟨by omega, by omega⟩
    have hmineq : pat.length ⊓ (hi - lo - i) = pat.length :=
      Nat.min_eq_left (by omega)
    rw [hmineq]
    exact ⟨hteq, by omega⟩

theorem lastBoundary_rfind (md pat : List Char) (lo hi : Nat)
    (hpat : 1 ≤ pat.length) :
    lastBoundarySpec md lo hi pat =
      (pyRfind (pySlice md lo hi) pat).map (fun p => lo + p) := by
  cases h : pyRfind (pySlice md lo hi) pat with
  | none =>
    simp only [Option.map_none']
    apply (greatest?_none_iff _ _).mpr
    intro j hj
    by_contra hc
    simp only [Bool.not_eq_false, Bool.and_eq_true, decide_eq_true_eq] at hc
    obtain ⟨⟨hlo, hhi⟩, hoc⟩ := hc
    have hji : lo + (j - lo) = j := by omega
    have : occursAtB (pySlice md lo hi) pat (j - lo) = true := by
      apply (occursAtB_slice md pat lo hi (j - lo) hpat).mpr
      rw [hji]
      exact ⟨hhi, hoc⟩
    rw [pyRfind_none _ _ h (j - lo)] at this
    exact absurd this (by simp)
  | some p =>
    simp only [Option.map_some']
    apply (greatest?_iff _ _ _).mpr
    obtain ⟨hocc, hplen, hmax⟩ := pyRfind_some _ _ _ h
    have hs := (occursAtB_slice md pat lo hi p hpat).mp hocc
    refine ⟨?_, by omega, ?_⟩
    · simp only [Bool.and_eq_true, decide_eq_true_eq]
      exact ⟨⟨by omega, hs.1⟩, hs.2⟩
    · intro j hj hQ
      simp only [Bool.and_eq_true, decide_eq_true_eq] at hQ
      obtain ⟨⟨hlo, hhi2⟩, hoc⟩ := hQ
      have hji : lo + (j - lo) = j := by omega
      have hrc : occursAtB (pySlice md lo hi) pat (j - lo) = true := by
        apply (occursAtB_slice md pat lo hi (j - lo) hpat).mpr
        rw [hji]
        exact ⟨hhi2, hoc⟩
      have := hmax _ hrc
      omega

theorem rfind_slice_bound (md pat : List Char) (lo hi p : Nat)
    (h : pyRfind (pySlice md lo hi) pat = some p) (hlo : lo ≤ hi) :
    lo + p + pat.length ≤ hi := by
  obtain ⟨_, hlen, _⟩ := pyRfind_some _ _ _ h
  have hr : (pySlice md lo hi).length = hi ⊓ md.length - lo := by
    simp [pySlice]
  have h2 := Nat.min_le_left hi md.length
  omega

/-- The truncation point never exceeds `max_length` (any ratio). -/
theorem find_smart_truncation_point_le (md : List Char) (ml : Nat) (ratio : ℚ) :
    find_smart_truncation_point md ml ratio ≤ ml := by
  simp only [find_smart_truncation_point]
  have hlo : ml - pyIntMul ml ratio ≤ ml := Nat.sub_le _ _
  repeat' split
  all_goals
    first
    | omega
    | · rename_i p h
        have := rfind_slice_bound _ _ _ _ _ h hlo
        simp only [List.length_cons, List.length_nil] at this
        omega

/-- The truncation point is at least 1 whenever `max_length ≥ 1`. -/
theorem find_smart_truncation_point_pos (md : List Char) (ml : Nat) (ratio : ℚ)
    (hml : 1 ≤ ml) : 1 ≤ find_smart_truncation_point md ml ratio := by
  simp only [find_smart_truncation_point]
  repeat' split
  all_goals omega

/-- C3: `find_smart_truncation_point` searches the window
`[max(0, max_length - int(window_ratio*max_length)), max_length)` for the
last occurrence of each boundary type in strict priority order — paragraph
break `"\n\n"`, then line break `"\n"`, then sentence ends `". "`, `"! "`,
`"? "` in that order, then single space — returning the offset immediately
after the first boundary type found; if none occur in the window it
returns exactly `max_length`: it coincides with the specification-side
`smartCutSpec` on every input. -/
theorem C3_smart_cut_priority (markdown : List Char) (max_length : Nat)
    (window_ratio : ℚ) :
    find_smart_truncation_point markdown max_length window_ratio =
      smartCutSpec markdown max_length window_ratio := by
  simp only [find_smart_truncation_point, smartCutSpec]
  rw [lastBoundary_rfind markdown ['\n', '\n'] _ _ (by simp),
    lastBoundary_rfind markdown ['\n'] _ _ (by simp),
    lastBoundary_rfind markdown ['.', ' '] _ _ (by simp),
    lastBoundary_rfind markdown ['!', ' '] _ _ (by simp),
    lastBoundary_rfind markdown ['?', ' '] _ _ (by simp),
    lastBoundary_rfind markdown [' '] _ _ (by simp)]
  cases pyRfind (pySlice markdown _ max_length) ['\n', '\n'] <;>
    cases pyRfind (pySlice markdown _ max_length) ['\n'] <;>
    cases pyRfind (pySlice markdown _ max_length) ['.', ' '] <;>
    cases pyRfind (pySlice markdown _ max_length) ['!', ' '] <;>
    cases pyRfind (pySlice markdown _ max_length) ['?', ' '] <;>
    cases pyRfind (pySlice markdown _ max_length) [' '] <;>
    simp [Option.map_some', Option.map_none']

/-! ### Lemmas: fence counting and balancing -/

theorem countFences_append_of_head :
    ∀ (A B : List Char),
      (∀ c t, B = c :: t → (c == backquote) = false) →
      countFences (A ++ B) = countFences A + countFences B
  | [], B, _ => by simp [countFences]
  | [a], B, hB => by
    cases B with
    | nil => simp [countFences]
    | cons c t =>
      cases t with
      | nil => simp [countFences]
      | cons d t2 =>
        have hc := hB c (d :: t2) rfl
        simp [countFences, hc]
  | [a, b], B, hB => by
    cases B with
    | nil => simp [countFences]
    | cons c t =>
      have hc := hB c t rfl
      have hr := countFences_append_of_head [b] (c :: t) hB
      have h1 : countFences ([a, b] ++ c :: t) = countFences (b :: c :: t) := by
        simp [countFences, hc]
      have h2 : countFences ([a, b] : List Char) = 0 := rfl
      rw [h1, h2]
      rw [show countFences [b] = 0 from rfl] at hr
      simpa using hr
  | a :: b :: c :: rest, B, hB => by
    by_cases hcond : (a == backquote && b == backquote && c == backquote) = true
    · have h1 : countFences ((a :: b :: c :: rest) ++ B) =
          countFences (rest ++ B) + 1 := by
        simp [countFences, hcond]
      have h2 : countFences (a :: b :: c :: rest) = countFences rest + 1 := by
        simp [countFences, hcond]
      have hr := countFences_append_of_head rest B hB
      rw [h1, h2]
      omega
    · have hcond' : (a == backquote && b == backquote && c == backquote) = false := by
        simpa using hcond
      have h1 : countFences ((a :: b :: c :: rest) ++ B) =
          countFences ((b :: c :: rest) ++ B) := by
        simp [countFences, hcond']
      have h2 : countFences (a :: b :: c :: rest) =
          countFences (b :: c :: rest) := by
        simp [countFences, hcond']
      have hr := countFences_append_of_head (b :: c :: rest) B hB
      rw [h1, h2, hr]
termination_by A _ _ => A.length

theorem countFences_append_closer (A : List Char) :
    countFences (A ++ fenceCloser) = countFences A + 1 := by
  have h := countFences_append_of_head A fenceCloser
    (by intro c t hct; rw [show fenceCloser = '\n' :: "```\n[Code block truncated]".toList from rfl] at hct; cases hct; rfl)
  rw [h, show countFences fenceCloser = 1 from rfl]

theorem balance_code_fences_even (x : List Char) (h : countFences x % 2 = 0) :
    balance_code_fences x = x := by
  simp [balance_code_fences, h]

theorem balance_code_fences_odd (x : List Char) (h : countFences x % 2 = 1) :
    balance_code_fences x = x ++ fenceCloser := by
  simp [balance_code_fences, h]

theorem balance_code_fences_length (x : List Char) :
    (balance_code_fences x).length ≤ x.length + 27 := by
  unfold balance_code_fences
  split
  · simp [fenceCloser]
  · simp

/-- C8 (amended wording is not needed; claim as stated): even fence count
means identity; odd fence count means the closer is appended, and then the
result has an even fence count and ends with `"[Code block truncated]"`. -/
theorem C8_balance_fences (content : List Char) :
    (countFences content % 2 = 0 → balance_code_fences content = content) ∧
    (countFences content % 2 = 1 →
      balance_code_fences content = content ++ fenceCloser ∧
      countFences (balance_code_fences content) % 2 = 0 ∧
      "[Code block truncated]".toList <:+ balance_code_fences content) := by
  refine ⟨balance_code_fences_even content, fun hodd => ?_⟩
  have happ := balance_code_fences_odd content hodd
  refine ⟨happ, ?_, ?_⟩
  · rw [happ, countFences_append_closer]
    omega
  · rw [happ]
    refine ⟨content ++ "\n```\n".toList, ?_⟩
    rw [List.append_assoc]
    rfl

/-- Witness for C8 at a concrete odd-count input. -/
theorem C8_balance_fences_witness :
    balance_code_fences "```ab".toList = "```ab".toList ++ fenceCloser :=
  ((C8_balance_fences "```ab".toList).2 (by decide)).1

/-! ### Lemmas: shape of conversion results -/

theorem convert_ok_shape (md : List Char) (ml : Option Nat) (ratio : ℚ)
    (si : Option Int) (r : ConversionResult)
    (h : convert_from_markdown md ml ratio si = .ok r) :
    ∃ b : Bool,
      r = convertCore (md.drop (si.getD 0).toNat) md.length (si.getD 0).toNat
        b ml ratio := by
  cases si with
  | none =>
    simp only [convert_from_markdown] at h
    refine ⟨false, ?_⟩
    have := Except.ok.inj h
    rw [← this]
    simp
  | some k =>
    simp only [convert_from_markdown] at h
    by_cases hk : (decide (k < 0) || decide ((md.length : Int) ≤ k)) = true
    · rw [if_pos hk] at h
      exact absurd h (by simp)
    · rw [if_neg hk] at h
      exact ⟨decide (0 < k), (Except.ok.inj h).symm⟩

theorem convertCore_truncated_shape (markdown : List Char) (tl s : Nat)
    (b : Bool) (mlo : Option Nat) (ratio : ℚ) (m : TruncationMetadata)
    (hm : (convertCore markdown tl s b mlo ratio).metadata = some m)
    (hst : m.status = .truncated) :
    ∃ ml, mlo = some ml ∧ ml < markdown.length ∧
      convertCore markdown tl s b mlo ratio =
        truncatedResult markdown tl s ml ratio := by
  cases mlo with
  | none =>
    simp only [convertCore, completeResult] at hm
    cases b with
    | false => simp at hm
    | true =>
      simp only [if_true] at hm
      have := Option.some.inj hm
      rw [← this] at hst
      simp at hst
  | some ml =>
    simp only [convertCore] at hm ⊢
    by_cases hlen : ml < markdown.length
    · rw [if_pos hlen] at hm ⊢
      exact ⟨ml, rfl, hlen, rfl⟩
    · rw [if_neg hlen] at hm
      simp only [completeResult] at hm
      cases b with
      | false => simp at hm
      | true =>
        simp only [if_true] at hm
        have := Option.some.inj hm
        rw [← this] at hst
        simp at hst

theorem truncatedResult_content (markdown : List Char) (tl s ml : Nat)
    (ratio : ℚ) :
    (truncatedResult markdown tl s ml ratio).content =
      balance_code_fences
        (markdown.take (find_smart_truncation_point markdown ml ratio)) := rfl

theorem truncatedResult_content_bound (markdown : List Char) (tl s ml : Nat)
    (ratio : ℚ) :
    (truncatedResult markdown tl s ml ratio).content.length ≤ ml + 27 ∧
      ((truncatedResult markdown tl s ml ratio).content.length ≤ ml ∨
        fenceCloser <:+ (truncatedResult markdown tl s ml ratio).content) := by
  rw [truncatedResult_content]
  have htp := find_smart_truncation_point_le markdown ml ratio
  have hlen : (markdown.take
      (find_smart_truncation_point markdown ml ratio)).length ≤ ml := by
    rw [List.length_take]
    have := Nat.min_le_left (find_smart_truncation_point markdown ml ratio)
      markdown.length
    omega
  set x := markdown.take (find_smart_truncation_point markdown ml ratio) with hx
  by_cases hpar : countFences x % 2 = 1
  · rw [balance_code_fences_odd x hpar]
    constructor
    · rw [List.length_append]
      have : fenceCloser.length = 27 := rfl
      omega
    · right
      exact ⟨x, rfl⟩
  · have : countFences x % 2 = 0 := by omega
    rw [balance_code_fences_even x this]
    exact ⟨by omega, Or.inl hlen⟩

/-- C2 corrected: `find_smart_truncation_point` always returns an offset
`≤ max_length`; the content of a truncating call has length `≤ max_length`
except that the fence-closing suffix may be appended, so in general
`≤ max_length + 27`, exceeding `max_length` only when the suffix is
present. -/
theorem C2_cut_respects_budget (md : List Char) (ml : Nat) (ratio : ℚ)
    (si : Option Int) :
    find_smart_truncation_point md ml ratio ≤ ml ∧
    ∀ r m, convert_from_markdown md (some ml) ratio si = .ok r →
      r.metadata = some m → m.status = TStatus.truncated →
      r.content.length ≤ ml + 27 ∧
      (r.content.length ≤ ml ∨ fenceCloser <:+ r.content) := by
  refine ⟨find_smart_truncation_point_le md ml ratio, ?_⟩
  intro r m hok hm hst
  obtain ⟨b, hr⟩ := convert_ok_shape md (some ml) ratio si r hok
  rw [hr] at hm ⊢
  obtain ⟨ml2, hml2, _, hshape⟩ :=
    convertCore_truncated_shape (md.drop (si.getD 0).toNat) md.length
      (si.getD 0).toNat b (some ml) ratio m hm hst
  have hmleq : ml2 = ml := by injection hml2.symm
  rw [hmleq] at hshape
  rw [hshape]
  exact truncatedResult_content_bound _ md.length _ ml ratio

/-- Witness for C2 at a concrete input, hypotheses discharged at the
default ratio. -/
theorem C2_cut_respects_budget_witness :
    find_smart_truncation_point "ab cd".toList 4
      defaultWindowRatio ≤ 4 :=
  (C2_cut_respects_budget "ab cd".toList 4 defaultWindowRatio
    none).1

/-- C2 counterexample: with `max_length = 5` and the default ratio
`0.15 ∈ (0,1)`, the input below is cut mid-code-block and the appended
fence-closing suffix makes the returned content 32 characters long,
exceeding `max_length = 5`. -/
theorem C2_counterexample :
    ((convert_from_markdown "```ab cdefg".toList (some 5)
        defaultWindowRatio none).toOption.map
      fun r => r.content.length) = some 32 ∧ 5 < 32 := by
  constructor
  · rfl
  · omega

/-! ### C5 and C10: offset validation boundaries, zero-offset equivalence -/

theorem drop_length_sub_one :
    ∀ (l : List Char), l ≠ [] → l.drop (l.length - 1) = l.getLast?.toList
  | [], h => absurd rfl h
  | [a], _ => rfl
  | a :: b :: t, _ => by
    have ih := drop_length_sub_one (b :: t) (by simp)
    have h1 : (a :: b :: t).length - 1 = (b :: t).length := by
      simp [List.length_cons]
    rw [h1]
    have h2 : (a :: b :: t).drop ((b :: t).length) =
        (b :: t).drop ((b :: t).length - 1) := by
      simp [List.length_cons]
    rw [h2, ih, List.getLast?_cons_cons]

/-- C5 corrected: `start_index = L` and `start_index = -1` fail with
`OffsetError` carrying the offending index and `L`; `start_index = L - 1`
(for nonempty documents, with `max_length` absent or `≥ 1`) succeeds and
returns exactly the last character — with `status=complete` metadata when
`L ≥ 2`, but with absent metadata when `L = 1` (the effective start index
is then `0`, and the source only emits metadata for positive offsets). -/
theorem C5_offset_validation (doc : List Char) (ml : Option Nat) (ratio : ℚ)
    (hml : ml = none ∨ ∃ m, ml = some m ∧ 1 ≤ m) (hdoc : doc ≠ []) :
    convert_from_markdown doc ml ratio (some (doc.length : Int)) =
      .error ⟨(doc.length : Int), doc.length⟩ ∧
    convert_from_markdown doc ml ratio (some (-1)) =
      .error ⟨-1, doc.length⟩ ∧
    convert_from_markdown doc ml ratio (some ((doc.length : Int) - 1)) =
      .ok ⟨doc.getLast?.toList,
        if doc.length = 1 then none
        else some ⟨.complete, 1, doc.length, none, none, []⟩⟩ := by
  have hL : 1 ≤ doc.length := List.length_pos.mpr hdoc
  refine ⟨?_, ?_, ?_⟩
  · simp only [convert_from_markdown]
    rw [if_pos (by simp)]
  · simp only [convert_from_markdown]
    rw [if_pos (by simp)]
  · simp only [convert_from_markdown]
    have hcond : (decide ((doc.length : Int) - 1 < 0) ||
        decide ((doc.length : Int) ≤ (doc.length : Int) - 1)) = false := by
      simp only [Bool.or_eq_false_iff, decide_eq_false_iff_not]
      omega
    rw [if_neg (by rw [hcond]; exact Bool.false_ne_true)]
    have htn : ((doc.length : Int) - 1).toNat = doc.length - 1 := by omega
    rw [htn]
    have hdl : (doc.drop (doc.length - 1)).length = 1 := by
      rw [List.length_drop]; omega
    have hcontent := drop_length_sub_one doc hdoc
    have hcore : convertCore (doc.drop (doc.length - 1)) doc.length
        (doc.length - 1) (decide (0 < (doc.length : Int) - 1)) ml ratio =
        completeResult (doc.drop (doc.length - 1)) doc.length
          (decide (0 < (doc.length : Int) - 1)) := by
      rcases hml with h | ⟨m, hm, hm1⟩
      · rw [h]; rfl
      · rw [hm]
        simp only [convertCore]
        rw [if_neg (by omega)]
    rw [hcore]
    by_cases h1 : doc.length = 1
    · have hb : decide (0 < (doc.length : Int) - 1) = false := by
        rw [h1]; rfl
      rw [hb]
      simp only [completeResult, Bool.false_eq_true, if_false, if_pos h1,
        hcontent]
    · have hb : decide (0 < (doc.length : Int) - 1) = true := by
        simp only [decide_eq_true_eq]
        omega
      rw [hb]
      simp only [completeResult, if_true, if_neg h1]
      rw [hdl, hcontent]

/-- Witness for C5 with hypotheses discharged on a concrete document. -/
theorem C5_offset_validation_witness :
    convert_from_markdown "ab".toList none defaultWindowRatio
      (some 2) = .error ⟨2, 2⟩ :=
  (C5_offset_validation "ab".toList none defaultWindowRatio
    (Or.inl rfl) (by decide)).1

/-- C5 counterexample: for the length-1 document `"a"`,
`start_index = L - 1 = 0` succeeds but the metadata is absent, not
`status=complete`; and with `max_length = 0` the `start_index = L - 1`
call of a length-2 document returns empty truncated content, not the last
character. -/
theorem C5_counterexample :
    convert_from_markdown "a".toList none defaultWindowRatio
      (some 0) = .ok ⟨"a".toList, none⟩ ∧
    convert_from_markdown "ab".toList (some 0) defaultWindowRatio
      (some 1) =
      .ok ⟨[], some ⟨.truncated, 0, 2, some 1, none, []⟩⟩ :=
  ⟨rfl, rfl⟩

/-- C10 corrected: for a nonempty rendered document the calls with
`start_index = 0` and with `start_index` absent are identical (so in
particular, when no truncation applies both return the full content with
absent metadata); for the empty rendered document `start_index = 0` fails
with `OffsetError` while the absent-offset call succeeds. -/
theorem C10_zero_offset_equivalence (doc : List Char) (ml : Option Nat)
    (ratio : ℚ) (hdoc : doc ≠ []) :
    convert_from_markdown doc ml ratio (some 0) =
      convert_from_markdown doc ml ratio none ∧
    ((ml = none ∨ ∃ m, ml = some m ∧ doc.length ≤ m) →
      convert_from_markdown doc ml ratio none = .ok ⟨doc, none⟩) := by
  have hL : 1 ≤ doc.length := List.length_pos.mpr hdoc
  constructor
  · simp only [convert_from_markdown]
    have hcond : (decide ((0 : Int) < 0) ||
        decide ((doc.length : Int) ≤ (0 : Int))) = false := by
      simp only [Bool.or_eq_false_iff, decide_eq_false_iff_not]
      omega
    rw [if_neg (by rw [hcond]; exact Bool.false_ne_true)]
    rw [show ((0 : Int).toNat) = 0 from rfl, List.drop_zero]
    rfl
  · intro hml
    simp only [convert_from_markdown]
    rcases hml with h | ⟨m, hm, hmlen⟩
    · rw [h]; rfl
    · rw [hm]
      simp only [convertCore]
      rw [if_neg (by omega)]
      rfl

/-- Witness for C10 with hypotheses discharged on a concrete document. -/
theorem C10_zero_offset_equivalence_witness :
    convert_from_markdown "a".toList none defaultWindowRatio
      (some 0) =
      convert_from_markdown "a".toList none defaultWindowRatio
        none :=
  (C10_zero_offset_equivalence "a".toList none defaultWindowRatio
    (by decide)).1

/-- C10 counterexample: on the empty rendered document (no truncation
applies), `start_index = 0` fails with `OffsetOutOfRange` while the
absent-offset call succeeds with empty content and absent metadata, so the
two calls are not equivalent. -/
theorem C10_counterexample :
    convert_from_markdown [] none defaultWindowRatio (some 0) =
      .error ⟨0, 0⟩ ∧
    convert_from_markdown [] none defaultWindowRatio none =
      .ok ⟨[], none⟩ :=
  ⟨rfl, rfl⟩

/-! ### Lemmas: the resume-until-complete loop (C1, C6) -/

theorem convertCore_trunc (markdown : List Char) (tl s : Nat) (b : Bool)
    (ml : Nat) (ratio : ℚ) (h : ml < markdown.length) :
    convertCore markdown tl s b (some ml) ratio =
      truncatedResult markdown tl s ml ratio := by
  simp [convertCore, h]

theorem convertCore_fits (markdown : List Char) (tl s : Nat) (b : Bool)
    (ml : Nat) (ratio : ℚ) (h : ¬ml < markdown.length) :
    convertCore markdown tl s b (some ml) ratio =
      completeResult markdown tl b := by
  simp [convertCore, h]

theorem truncatedResult_next (markdown : List Char) (tl s ml : Nat)
    (ratio : ℚ) :
    nextCursor (truncatedResult markdown tl s ml ratio) =
      some (s + find_smart_truncation_point markdown ml ratio) := rfl

theorem completeResult_next (markdown : List Char) (tl : Nat) (b : Bool) :
    nextCursor (completeResult markdown tl b) = none := by
  cases b <;> rfl

theorem completeResult_content (markdown : List Char) (tl : Nat) (b : Bool) :
    (completeResult markdown tl b).content = markdown := by
  cases b <;> rfl

theorem completeResult_metadata (markdown : List Char) (tl : Nat) (b : Bool) :
    (completeResult markdown tl b).metadata = none ∨
      ∃ m, (completeResult markdown tl b).metadata = some m ∧
        m.status = TStatus.complete := by
  cases b with
  | false => exact Or.inl rfl
  | true => exact Or.inr ⟨_, rfl, rfl⟩

theorem balanceInit_cons (x : List Char) (l : List (List Char)) (h : l ≠ []) :
    balanceInit (x :: l) = balance_code_fences x :: balanceInit l := by
  cases l with
  | nil => exact absurd rfl h
  | cons y t => rfl

/-- One call of the loop: for a valid cursor, `convert_from_markdown`
succeeds and returns the core applied at the cursor's offset. -/
theorem convert_loop_step (doc : List Char) (ml : Nat) (ratio : ℚ)
    (si : Option Nat) (s : Nat)
    (hsi : (si = none ∧ s = 0) ∨ (si = some s ∧ s < doc.length)) :
    convert_from_markdown doc (some ml) ratio (si.map Int.ofNat) =
      .ok (convertCore (doc.drop s) doc.length s (decide (0 < s))
        (some ml) ratio) := by
  rcases hsi with ⟨hn, hs0⟩ | ⟨hsome, hlt⟩
  · subst hn
    subst hs0
    simp only [Option.map_none', convert_from_markdown, List.drop_zero]
    rfl
  · subst hsome
    simp only [Option.map_some', convert_from_markdown]
    have hcond : (decide ((Int.ofNat s) < 0) ||
        decide ((doc.length : Int) ≤ Int.ofNat s)) = false := by
      simp only [Bool.or_eq_false_iff, decide_eq_false_iff_not,
        Int.ofNat_eq_coe]
      omega
    rw [if_neg (by rw [hcond]; exact Bool.false_ne_true)]
    have h1 : (Int.ofNat s).toNat = s := rfl
    have h2 : decide (0 < Int.ofNat s) = decide (0 < s) :=
      decide_eq_decide.mpr Int.ofNat_pos
    rw [h1, h2]

/-- Main loop invariant, proved by induction on the fuel: the returned
contents are the fence-balanced raw slices (last slice unbalanced), the
raw slices concatenate exactly to the remaining document, and the loop
ends with a call whose cursor is exhausted and whose metadata is absent
or `complete`. -/
theorem resume_main (doc : List Char) (ml : Nat) (ratio : ℚ) (hml : 1 ≤ ml) :
    ∀ (fuel : Nat) (s : Nat) (si : Option Nat),
      ((si = none ∧ s = 0) ∨ (si = some s ∧ s < doc.length)) →
      doc.length - s < fuel →
      ((resumeFrom doc ml ratio fuel si).map (fun r => r.content) =
          balanceInit (sliceSeq doc ml ratio fuel s)) ∧
      sliceSeq doc ml ratio fuel s ≠ [] ∧
      resumeFrom doc ml ratio fuel si ≠ [] ∧
      (sliceSeq doc ml ratio fuel s).foldr (· ++ ·) [] = doc.drop s ∧
      (∃ r, (resumeFrom doc ml ratio fuel si).getLast? = some r ∧
        nextCursor r = none ∧
        (r.metadata = none ∨
          ∃ m, r.metadata = some m ∧ m.status = TStatus.complete)) := by
  intro fuel
  induction fuel with
  | zero => intro s si _ hfuel; omega
  | succ fuel ih =>
    intro s si hsi hfuel
    have hstep := convert_loop_step doc ml ratio si s hsi
    by_cases htr : ml < (doc.drop s).length
    · -- truncating call
      have hcore := convertCore_trunc (doc.drop s) doc.length s
        (decide (0 < s)) ml ratio htr
      set tp := find_smart_truncation_point (doc.drop s) ml ratio with htp
      have htp1 : 1 ≤ tp := find_smart_truncation_point_pos _ _ _ hml
      have htple : tp ≤ ml := find_smart_truncation_point_le _ _ _
      have hdlen : (doc.drop s).length = doc.length - s := List.length_drop _ _
      have hnext : s + tp < doc.length := by omega
      have hrec := ih (s + tp) (some (s + tp))
        (Or.inr ⟨rfl, hnext⟩) (by omega)
      obtain ⟨hc1, hc2, hc3, hc4, hc5⟩ := hrec
      have hresume : resumeFrom doc ml ratio (fuel + 1) si =
          truncatedResult (doc.drop s) doc.length s ml ratio ::
            resumeFrom doc ml ratio fuel (some (s + tp)) := by
        simp only [resumeFrom, hstep, hcore, truncatedResult_next]
      have hslice : sliceSeq doc ml ratio (fuel + 1) s =
          (doc.drop s).take tp :: sliceSeq doc ml ratio fuel (s + tp) := by
        simp only [sliceSeq]
        rw [if_pos htr]
      refine ⟨?_, ?_, ?_, ?_, ?_⟩
      · rw [hresume, hslice, List.map_cons, balanceInit_cons _ _ hc2, hc1]
        rfl
      · rw [hslice]; simp
      · rw [hresume]; simp
      · rw [hslice]
        simp only [List.foldr_cons]
        rw [hc4]
        rw [show doc.drop (s + tp) = (doc.drop s).drop tp from
          (List.drop_drop tp s doc).symm]
        exact List.take_append_drop tp (doc.drop s)
      · rw [hresume]
        obtain ⟨r, hr, hrest⟩ := hc5
        refine ⟨r, ?_, hrest⟩
        rw [List.getLast?_cons, hr]
        simp
    · -- the remaining text fits: final call
      have hcore := convertCore_fits (doc.drop s) doc.length s
        (decide (0 < s)) ml ratio htr
      have hresume : resumeFrom doc ml ratio (fuel + 1) si =
          [completeResult (doc.drop s) doc.length (decide (0 < s))] := by
        simp only [resumeFrom, hstep, hcore, completeResult_next]
      have hslice : sliceSeq doc ml ratio (fuel + 1) s = [doc.drop s] := by
        simp only [sliceSeq]
        rw [if_neg htr]
      refine ⟨?_, ?_, ?_, ?_, ?_⟩
      · rw [hresume, hslice]
        simp [balanceInit, completeResult_content]
      · rw [hslice]; simp
      · rw [hresume]; simp
      · rw [hslice]; simp
      · rw [hresume]
        exact ⟨_, rfl, completeResult_next _ _ _,
          completeResult_metadata _ _ _⟩

theorem balanceInit_of_even (l : List (List Char))
    (h : ∀ x ∈ l, countFences x % 2 = 0) : balanceInit l = l := by
  induction l with
  | nil => rfl
  | cons x t iht =>
    cases t with
    | nil => rfl
    | cons y t2 =>
      rw [balanceInit_cons _ _ (by simp)]
      rw [balance_code_fences_even x (h x (by simp))]
      rw [iht fun z hz => h z (by simp [hz])]

/-- C1 corrected: with fuel `|doc|+1` the resume loop terminates on its
own, the terminal call has absent metadata or `status=complete`, and the
successive raw cut slices concatenate to the document exactly (no loss,
duplication, or overlap).  The returned `content` fields are those slices
with `balance_code_fences` applied to every truncated slice, so their
concatenation equals the document exactly iff no slice was cut with an odd
fence-marker count; otherwise it differs exactly by the inserted
fence-closing suffixes. -/
theorem C1_round_trip (doc : List Char) (ml : Nat) (ratio : ℚ)
    (hml : 1 ≤ ml) :
    ((sliceSeq doc ml ratio (doc.length + 1) 0).foldr (· ++ ·) [] = doc) ∧
    ((resumeFrom doc ml ratio (doc.length + 1) none).map
        (fun r => r.content) =
      balanceInit (sliceSeq doc ml ratio (doc.length + 1) 0)) ∧
    ((∀ x ∈ sliceSeq doc ml ratio (doc.length + 1) 0,
        countFences x % 2 = 0) →
      ((resumeFrom doc ml ratio (doc.length + 1) none).map
          (fun r => r.content)).foldr (· ++ ·) [] = doc) ∧
    (∃ r, (resumeFrom doc ml ratio (doc.length + 1) none).getLast? =
        some r ∧ nextCursor r = none ∧
      (r.metadata = none ∨
        ∃ m, r.metadata = some m ∧ m.status = TStatus.complete)) := by
  obtain ⟨hc1, hc2, hc3, hc4, hc5⟩ :=
    resume_main doc ml ratio hml (doc.length + 1) 0 none
      (Or.inl ⟨rfl, rfl⟩) (by omega)
  rw [List.drop_zero] at hc4
  refine ⟨hc4, hc1, fun heven => ?_, hc5⟩
  rw [hc1, balanceInit_of_even _ heven, hc4]

/-- Witness for C1 with the hypothesis discharged on a concrete input. -/
theorem C1_round_trip_witness :
    (sliceSeq "ab".toList 1 defaultWindowRatio 3 0).foldr
      (· ++ ·) [] = "ab".toList :=
  (C1_round_trip "ab".toList 1 defaultWindowRatio
    (by decide)).1

/-- C1 counterexample: resuming at `next_start_index` over the document
```` "```ab cd" ```` with `max_length = 5` yields contents whose
concatenation contains an inserted `"\n```\n[Code block truncated]"`, so
it is not the original document. -/
theorem C1_counterexample :
    ((resumeFrom "```ab cd".toList 5 defaultWindowRatio 9
          none).map (fun r => r.content)).foldr (· ++ ·) [] =
      "```ab\n```\n[Code block truncated] cd".toList ∧
    "```ab\n```\n[Code block truncated] cd".toList ≠ "```ab cd".toList :=
  ⟨rfl, by decide⟩

/-- C6: for `max_length ≥ 1` the truncation point is at least 1, every
truncating (`status=partial`) call returns a `next_start_index` strictly
greater than the call's effective start, and the resume loop over a fixed
document terminates by reaching a call with no continuation cursor. -/
theorem C6_progress_termination (md : List Char) (ml : Nat) (ratio : ℚ)
    (si : Option Int) (hml : 1 ≤ ml) :
    1 ≤ find_smart_truncation_point md ml ratio ∧
    (∀ r m, convert_from_markdown md (some ml) ratio si = .ok r →
      r.metadata = some m → m.status = TStatus.truncated →
      ∃ n, m.next_start_index = some n ∧ (si.getD 0).toNat < n) ∧
    (resumeFrom md ml ratio (md.length + 1) none ≠ [] ∧
      ∃ r, (resumeFrom md ml ratio (md.length + 1) none).getLast? =
          some r ∧ nextCursor r = none) := by
  refine ⟨find_smart_truncation_point_pos md ml ratio hml, ?_, ?_⟩
  · intro r m hok hm hst
    obtain ⟨b, hr⟩ := convert_ok_shape md (some ml) ratio si r hok
    rw [hr] at hm
    obtain ⟨ml2, hml2, _, hshape⟩ :=
      convertCore_truncated_shape (md.drop (si.getD 0).toNat) md.length
        (si.getD 0).toNat b (some ml) ratio m hm hst
    have hmleq : ml2 = ml := by injection hml2.symm
    rw [hmleq] at hshape
    rw [hshape] at hm
    have hmval := Option.some.inj hm
    refine ⟨(si.getD 0).toNat +
      find_smart_truncation_point (md.drop (si.getD 0).toNat) ml ratio,
      ?_, ?_⟩
    · rw [← hmval]
    · have := find_smart_truncation_point_pos (md.drop (si.getD 0).toNat)
        ml ratio hml
      omega
  · obtain ⟨_, _, hc3, _, r, hr, hnext, _⟩ :=
      resume_main md ml ratio hml (md.length + 1) 0 none
        (Or.inl ⟨rfl, rfl⟩) (by omega)
    exact ⟨hc3, r, hr, hnext⟩

/-- Witness for C6 with hypotheses discharged on a concrete input. -/
theorem C6_progress_termination_witness :
    1 ≤ find_smart_truncation_point "ab".toList 1
      defaultWindowRatio :=
  (C6_progress_termination "ab".toList 1 defaultWindowRatio
    none (by decide)).1

/-! ### C4: section extraction equivalence -/

theorem findTarget_eq (key : List Char) :
    ∀ l : List (Nat × Nat × List Char × Nat),
      findTarget key l =
        match l.dropWhile (fun h => !(pyLower h.2.2.1 == key)) with
        | [] => none
        | h :: rest => some (h.1, h.2.1, rest)
  | [] => rfl
  | h :: t => by
    by_cases hk : (pyLower h.2.2.1 == key) = true
    · simp only [findTarget, hk, if_true, List.dropWhile_cons, Bool.not_true]
      simp
    · have hk' : (pyLower h.2.2.1 == key) = false := by simpa using hk
      simp only [findTarget, hk', Bool.false_eq_true, if_false,
        List.dropWhile_cons, Bool.not_false]
      exact findTarget_eq key t

theorem findSectionEnd_eq (lvl dflt : Nat) :
    ∀ l : List (Nat × Nat × List Char × Nat),
      findSectionEnd lvl dflt l =
        (((l.find? fun h => h.1 ≤ lvl).map fun h => h.2.1).getD dflt)
  | [] => rfl
  | h :: t => by
    by_cases hk : h.1 ≤ lvl
    · simp [findSectionEnd, List.find?_cons, hk]
    · simp only [findSectionEnd, if_neg hk]
      rw [findSectionEnd_eq lvl dflt t]
      have : (decide (h.1 ≤ lvl)) = false := by simpa using hk
      simp [List.find?_cons, this]

/-- C4: `extract_section` behaves exactly as claimed — normalise the name
(strip leading `#`, strip whitespace, lowercase), exact case-insensitive
match against the heading texts, first match in document order, span up to
the next heading of level `≤` the matched level or document end,
right-trimmed content plus the heading's start offset; on failure,
`SectionNotFound` with the original name and the complete ordered heading
list.  Stated as equality with the specification-side
`extractSectionSpec`. -/
theorem C4_extract_section_spec (markdown section_name : List Char) :
    extract_section markdown section_name =
      extractSectionSpec markdown section_name := by
  simp only [extract_section, extractSectionSpec]
  rw [findTarget_eq]
  cases hd : (sectionHeaders markdown).dropWhile
      (fun h => !(pyLower h.2.2.1 ==
        pyLower (pyStrip (section_name.dropWhile (· == '#'))))) with
  | nil => rfl
  | cons target after =>
    simp only
    rw [findSectionEnd_eq]

/-! ### C9: soundness facts about the header matcher -/

theorem descList_mem (n a : Nat) : a ∈ descList n ↔ a ≤ n := by
  induction n with
  | zero => simp [descList]
  | succ n ih => simp [descList, ih]; omega

theorem descList1_mem (n a : Nat) : a ∈ descList1 n ↔ 1 ≤ a ∧ a ≤ n := by
  induction n with
  | zero => simp [descList1]; omega
  | succ n ih => simp [descList1, ih]; omega

theorem ascList1_mem (n a : Nat) : a ∈ ascList1 n ↔ 1 ≤ a ∧ a ≤ n := by
  simp only [ascList1, List.mem_map, List.mem_range]
  constructor
  · rintro ⟨x, hx, hxa⟩; omega
  · rintro ⟨h1, h2⟩; exact ⟨a - 1, by omega, by omega⟩

theorem wsRunAt_pos (s : List Char) (q : Nat) (h : 1 ≤ wsRunAt s q) :
    ∃ c, s.get? q = some c ∧ pySpace c = true := by
  unfold wsRunAt at h
  cases hdrop : s.drop q with
  | nil => rw [hdrop] at h; simp at h
  | cons c t =>
    rw [hdrop] at h
    by_cases hc : pySpace c = true
    · refine ⟨c, ?_, hc⟩
      have h0 := List.get?_drop s q 0
      rw [hdrop] at h0
      simpa using h0.symm
    · rw [List.takeWhile_cons] at h
      rw [Bool.not_eq_true] at hc
      rw [hc] at h
      simp at h

theorem tryCD_some (s : List Char) (pos2 e : Nat)
    (h : tryCD s pos2 = some e) : pos2 ≤ e ∧ e ≤ s.length := by
  obtain ⟨c, _, hc⟩ := List.exists_of_findSome?_eq_some h
  obtain ⟨d, _, hd⟩ := List.exists_of_findSome?_eq_some hc
  by_cases hdol : isDollar s (pos2 + c + d) = true
  · rw [if_pos hdol] at hd
    have he := Option.some.inj hd
    subst he
    refine ⟨by omega, ?_⟩
    unfold isDollar at hdol
    rcases Bool.or_eq_true_iff.mp hdol with h1 | h2
    · have heq : pos2 + c + d = s.length := by simpa using h1
      omega
    · have h2' : s.get? (pos2 + c + d) = some '\n' := by simpa using h2
      obtain ⟨hlt, _⟩ := List.get?_eq_some.mp h2'
      omega
  · rw [if_neg hdol] at hd
    exact absurd hd (by simp)

theorem tryB_some (s : List Char) (pos1 : Nat) (b e : Nat)
    (h : tryB s pos1 = some (b, e)) :
    1 ≤ b ∧ pos1 + b ≤ e ∧ e ≤ s.length := by
  obtain ⟨b0, hmem, hb0⟩ := List.exists_of_findSome?_eq_some h
  cases hcd : tryCD s (pos1 + b0) with
  | none => rw [hcd] at hb0; simp at hb0
  | some e0 =>
    rw [hcd] at hb0
    simp only [Option.map_some'] at hb0
    have hpair := Option.some.inj hb0
    have hbb : b0 = b := congrArg Prod.fst hpair
    have hee : e0 = e := congrArg Prod.snd hpair
    rw [← hbb, ← hee]
    have hbmem := (ascList1_mem _ _).mp hmem
    have hcds := tryCD_some s (pos1 + b0) e0 hcd
    exact ⟨hbmem.1, by omega, hcds.2⟩

theorem tryA_some (s : List Char) (q : Nat) (a b e : Nat)
    (h : tryA s q = some (a, b, e)) :
    1 ≤ a ∧ a ≤ wsRunAt s q ∧ q + a + b ≤ e ∧ 1 ≤ b ∧ e ≤ s.length := by
  obtain ⟨a0, hmem, ha0⟩ := List.exists_of_findSome?_eq_some h
  cases hb : tryB s (q + a0) with
  | none => rw [hb] at ha0; simp at ha0
  | some be =>
    rw [hb] at ha0
    simp only [Option.map_some'] at ha0
    obtain ⟨b0, e0⟩ := be
    have htrip := Option.some.inj ha0
    have ha : a0 = a := congrArg Prod.fst htrip
    have h2 : (b0, e0) = (b, e) := congrArg Prod.snd htrip
    have hbb : b0 = b := congrArg Prod.fst h2
    have hee : e0 = e := congrArg Prod.snd h2
    rw [← ha, ← hbb, ← hee]
    have hamem := (descList1_mem _ _).mp hmem
    have hB := tryB_some s (q + a0) b0 e0 hb
    exact ⟨hamem.1, hamem.2, by omega, hB.1, hB.2.2⟩

theorem matchHeadingAt_some (s : List Char) (p lvl : Nat) (raw : List Char)
    (e : Nat) (h : matchHeadingAt s p = some (lvl, raw, e)) :
    isLineStart s p = true ∧ lvl = hashRunAt s p ∧ 1 ≤ lvl ∧ lvl ≤ 6 ∧
      (∃ c, s.get? (p + lvl) = some c ∧ pySpace c = true) ∧
      p + 2 < e ∧ e ≤ s.length := by
  unfold matchHeadingAt at h
  by_cases hls : isLineStart s p = true
  · rw [if_pos hls] at h
    by_cases hrun : (1 ≤ hashRunAt s p && hashRunAt s p ≤ 6) = true
    · rw [if_pos hrun] at h
      simp only [Bool.and_eq_true, decide_eq_true_eq] at hrun
      cases hA : tryA s (p + hashRunAt s p) with
      | none => rw [hA] at h; simp at h
      | some abe =>
        rw [hA] at h
        obtain ⟨a, b, e0⟩ := abe
        simp only at h
        have htrip := Option.some.inj h
        have hlvl : lvl = hashRunAt s p := (congrArg Prod.fst htrip).symm
        have he : e0 = e := by
          have := congrArg (fun x => x.2.2) htrip
          simpa using this
        have hfacts := tryA_some s (p + hashRunAt s p) a b e0 hA
        obtain ⟨hf1, hf2, hf3, hf4, hf5⟩ := hfacts
        refine ⟨hls, hlvl, by omega, by omega, ?_, by omega, by omega⟩
        rw [hlvl]
        exact wsRunAt_pos s (p + hashRunAt s p) (by omega)
    · rw [if_neg hrun] at h
      simp at h
  · rw [if_neg hls] at h
    simp at h

theorem scanHeadings_mem (s : List Char) :
    ∀ (fuel p : Nat) (q : Nat × Nat × List Char × Nat),
      q ∈ scanHeadings s fuel p →
      p ≤ q.2.1 ∧ matchHeadingAt s q.2.1 = some (q.1, q.2.2.1, q.2.2.2) := by
  intro fuel
  induction fuel with
  | zero => intro p q hq; simp [scanHeadings] at hq
  | succ fuel ih =>
    intro p q hq
    simp only [scanHeadings] at hq
    by_cases hstop : s.length ≤ p
    · rw [if_pos hstop] at hq; simp at hq
    · rw [if_neg hstop] at hq
      cases hm : matchHeadingAt s p with
      | none =>
        rw [hm] at hq
        have := ih (p + 1) q hq
        exact ⟨by omega, this.2⟩
      | some lre =>
        rw [hm] at hq
        obtain ⟨lvl, raw, e⟩ := lre
        rcases List.mem_cons.mp hq with hq1 | hq2
        · subst hq1
          exact ⟨Nat.le_refl _, hm⟩
        · have hrec := ih e q hq2
          have hb := matchHeadingAt_some s p lvl raw e hm
          exact ⟨by omega, hrec.2⟩

theorem scanHeadings_pairwise (s : List Char) :
    ∀ (fuel p : Nat),
      List.Pairwise (fun a b => a.2.1 < b.2.1) (scanHeadings s fuel p) := by
  intro fuel
  induction fuel with
  | zero => intro p; simp [scanHeadings]
  | succ fuel ih =>
    intro p
    simp only [scanHeadings]
    by_cases hstop : s.length ≤ p
    · rw [if_pos hstop]; simp
    · rw [if_neg hstop]
      cases hm : matchHeadingAt s p with
      | none => exact ih (p + 1)
      | some lre =>
        obtain ⟨lvl, raw, e⟩ := lre
        refine List.Pairwise.cons ?_ (ih e)
        intro q hq
        have hrec := scanHeadings_mem s fuel e q hq
        have hb := matchHeadingAt_some s p lvl raw e hm
        simp only
        omega

theorem dropWhile_head_not {α : Type} (p : α → Bool) :
    ∀ (l : List α) (c : α), (l.dropWhile p).head? = some c → p c = false := by
  intro l
  induction l with
  | nil => intro c h; simp [List.dropWhile] at h
  | cons a t ih =>
    intro c h
    by_cases ha : p a = true
    · rw [List.dropWhile_cons, ha] at h
      simp only [if_true] at h
      exact ih c h
    · rw [List.dropWhile_cons] at h
      rw [Bool.not_eq_true] at ha
      rw [ha] at h
      simp only [Bool.false_eq_true, if_false, List.head?_cons] at h
      have := Option.some.inj h
      rw [← this]
      exact ha

theorem dropWhile_of_head_not {α : Type} (p : α → Bool) (l : List α)
    (h : ∀ c, l.head? = some c → p c = false) : l.dropWhile p = l := by
  cases l with
  | nil => rfl
  | cons a t =>
    rw [List.dropWhile_cons, h a rfl]
    simp

theorem dropWhile_idem {α : Type} (p : α → Bool) (l : List α) :
    (l.dropWhile p).dropWhile p = l.dropWhile p :=
  dropWhile_of_head_not p _ (dropWhile_head_not p l)

theorem pyRstrip_idem (l : List Char) : pyRstrip (pyRstrip l) = pyRstrip l := by
  unfold pyRstrip
  rw [List.reverse_reverse, dropWhile_idem]

theorem pyStrip_idem (l : List Char) : pyStrip (pyStrip l) = pyStrip l := by
  unfold pyStrip pyLstrip
  have hA : (pyRstrip (l.dropWhile pySpace)).dropWhile pySpace =
      pyRstrip (l.dropWhile pySpace) := by
    apply dropWhile_of_head_not
    intro c hc
    unfold pyRstrip at hc
    rw [List.head?_reverse] at hc
    obtain ⟨u, hu⟩ :=
      List.dropWhile_suffix (l := (l.dropWhile pySpace).reverse) pySpace
    have h3 : ((l.dropWhile pySpace).reverse).getLast? = some c := by
      rw [← hu, List.getLast?_append, hc]
      rfl
    rw [List.getLast?_reverse] at h3
    exact dropWhile_head_not pySpace l c h3
  rw [hA, pyRstrip_idem]

/-- C9 corrected: every entry of `extract_section_headers` starts at a line
start (offset 0 or right after a newline) with a run of 1-6 `#` characters
followed by a whitespace character, its text is trimmed, and entries come
in strictly increasing offset (document) order — but, because the regex
separator `\s+` also matches newlines, the whitespace after the `#` run
may be a line break and the heading text may come from a following line,
so "text on that line" does not hold. -/
theorem C9_header_index_sound (md : List Char) :
    List.Pairwise (fun a b => a.2 < b.2) (extract_section_headers md) ∧
    ∀ tx off, (tx, off) ∈ extract_section_headers md →
      isLineStart md off = true ∧
      1 ≤ hashRunAt md off ∧ hashRunAt md off ≤ 6 ∧
      (∃ c, md.get? (off + hashRunAt md off) = some c ∧ pySpace c = true) ∧
      tx = pyStrip tx := by
  constructor
  · unfold extract_section_headers findHeadingsFull
    exact List.Pairwise.map _ (fun a b hab => hab)
      (scanHeadings_pairwise md (md.length + 1) 0)
  · intro tx off hmem
    unfold extract_section_headers findHeadingsFull at hmem
    obtain ⟨q, hq, hfq⟩ := List.mem_map.mp hmem
    have htx : pyStrip q.2.2.1 = tx := congrArg Prod.fst hfq
    have hoff : q.2.1 = off := congrArg Prod.snd hfq
    have hscan := scanHeadings_mem md (md.length + 1) 0 q hq
    have hmatch := matchHeadingAt_some md q.2.1 q.1 q.2.2.1 q.2.2.2 hscan.2
    obtain ⟨hls, hlvl, h1, h6, hws, _, _⟩ := hmatch
    rw [hoff] at hls hlvl hws
    refine ⟨hls, by omega, by omega, ?_, ?_⟩
    · rw [← hlvl]; exact hws
    · rw [← htx, pyStrip_idem]

/-- Witness for C9: the soundness facts evaluated on the entry of a
concrete document. -/
theorem C9_header_index_sound_witness :
    isLineStart "# A".toList 0 = true :=
  ((C9_header_index_sound "# A".toList).2 "A".toList 0 (by decide)).1

/-- C9 counterexample: in `"#\nab"` no line consists of 1-6 `#` followed by
whitespace and text on the same line (claim-side index `lineHeadingsSpec`
is empty), yet the code indexes a heading with text `"ab"` — taken from
the second line — at offset 0, because `\s+` in the regex matches the
newline. -/
theorem C9_counterexample :
    extract_section_headers "#\nab".toList = [("ab".toList, 0)] ∧
    lineHeadingsSpec "#\nab".toList = [] ∧
    ([("ab".toList, 0)] : List (List Char × Nat)) ≠ [] :=
  ⟨rfl, rfl, by decide⟩

/-! ### C7: sanitizer pass commutation -/

mutual

theorem filterNode_comp (P Q : HPred) :
    ∀ n : HNode, (filterNode Q n).bind (filterNode P) =
      filterNode (fun t c i st => Q t c i st || P t c i st) n
  | .text s => rfl
  | .elem t cs i st ch => by
    by_cases hQ : Q t cs i st = true
    · simp [filterNode, hQ]
    · have hQ' : Q t cs i st = false := by simpa using hQ
      by_cases hP : P t cs i st = true
      · simp [filterNode, hQ', hP]
      · have hP' : P t cs i st = false := by simpa using hP
        simp only [filterNode, hQ', hP', Bool.false_eq_true, if_false,
          Option.some_bind, Bool.or_self, Option.some.injEq,
          HNode.elem.injEq, true_and]
        exact filterNodes_comp P Q ch

theorem filterNodes_comp (P Q : HPred) :
    ∀ l : List HNode, filterNodes P (filterNodes Q l) =
      filterNodes (fun t c i st => Q t c i st || P t c i st) l
  | [] => rfl
  | n :: ns => by
    have hn := filterNode_comp P Q n
    cases hQn : filterNode Q n with
    | none =>
      rw [hQn] at hn
      simp only [Option.none_bind] at hn
      simp only [filterNodes, hQn, ← hn]
      exact filterNodes_comp P Q ns
    | some m =>
      rw [hQn] at hn
      simp only [Option.some_bind] at hn
      cases hPm : filterNode P m with
      | none =>
        rw [hPm] at hn
        simp only [filterNodes, hQn, hPm, ← hn]
        exact filterNodes_comp P Q ns
      | some m2 =>
        rw [hPm] at hn
        simp only [filterNodes, hQn, hPm, ← hn]
        rw [filterNodes_comp P Q ns]

end

mutual

theorem filterNode_false :
    ∀ n : HNode, filterNode (fun _ _ _ _ => false) n = some n
  | .text s => rfl
  | .elem t cs i st ch => by
    simp only [filterNode, Bool.false_eq_true, if_false, Option.some.injEq,
      HNode.elem.injEq, true_and]
    exact filterNodes_false ch

theorem filterNodes_false :
    ∀ l : List HNode, filterNodes (fun _ _ _ _ => false) l = l
  | [] => rfl
  | n :: ns => by
    simp only [filterNodes, filterNode_false n]
    rw [filterNodes_false ns]

end

theorem filterNodes_congr (P Q : HPred)
    (h : ∀ t c i st, P t c i st = Q t c i st) (l : List HNode) :
    filterNodes P l = filterNodes Q l := by
  have hPQ : P = Q :=
    funext fun t => funext fun c => funext fun i => funext fun st => h t c i st
  rw [hPQ]

theorem foldl_filterNodes (p : List Char → HPred) :
    ∀ (names : List (List Char)) (l : List HNode),
      names.foldl (fun acc nm => filterNodes (p nm) acc) l =
        filterNodes (fun t c i st => names.any fun nm => p nm t c i st) l
  | [], l => by
    simp only [List.foldl_nil, List.any_nil]
    exact (filterNodes_false l).symm
  | nm :: rest, l => by
    simp only [List.foldl_cons]
    rw [foldl_filterNodes p rest (filterNodes (p nm) l), filterNodes_comp]
    exact filterNodes_congr _ _ (fun t c i st => by simp [List.any_cons]) l

theorem filterNodes_comm (P Q : HPred) (l : List HNode) :
    filterNodes P (filterNodes Q l) = filterNodes Q (filterNodes P l) := by
  rw [filterNodes_comp, filterNodes_comp]
  exact filterNodes_congr _ _ (fun t c i st => Bool.or_comm _ _) l

theorem tagsPass_eq (l : List HNode) :
    tagsPass l = filterNodes
      (fun t c i st => UNWANTED_TAGS.any fun nm => tagPred nm t c i st) l :=
  foldl_filterNodes tagPred UNWANTED_TAGS l

theorem classesPass_eq (l : List HNode) :
    classesPass l = filterNodes
      (fun t c i st => UNWANTED_CLASSES.any fun nm => classPred nm t c i st)
      l :=
  foldl_filterNodes classPred UNWANTED_CLASSES l

/-- C7 corrected: the three full-removal passes (deny-listed tags,
deny-listed class tokens, `display:none` styles) commute with each other
in any order; only the id pass (which removes just the first match per id)
is order-sensitive. -/
theorem C7_full_passes_commute (l : List HNode) :
    tagsPass (classesPass l) = classesPass (tagsPass l) ∧
    tagsPass (stylesPass l) = stylesPass (tagsPass l) ∧
    classesPass (stylesPass l) = stylesPass (classesPass l) := by
  refine ⟨?_, ?_, ?_⟩
  · rw [tagsPass_eq, tagsPass_eq, classesPass_eq, classesPass_eq]
    exact filterNodes_comm _ _ l
  · rw [tagsPass_eq, tagsPass_eq]
    unfold stylesPass
    exact filterNodes_comm _ _ l
  · rw [classesPass_eq, classesPass_eq]
    unfold stylesPass
    exact filterNodes_comm _ _ l

/-- C7 counterexample: two sibling `div`s, the first with class `sidebar`
and id `nav`, the second with only id `nav`.  In the source order (tags,
classes, ids, styles) the class pass removes the first and the id pass
then removes the second, leaving nothing; running the id pass first
consumes its single `nav` removal on the first element, and the second
survives — the serialized results differ. -/
theorem C7_counterexample :
    serializeNodes (sanitize_tree
      [.elem "div".toList ["sidebar".toList] (some "nav".toList) none [],
       .elem "div".toList [] (some "nav".toList) none []]) ≠
    serializeNodes (stylesPass (classesPass (tagsPass (idsPass
      [.elem "div".toList ["sidebar".toList] (some "nav".toList) none [],
       .elem "div".toList [] (some "nav".toList) none []])))) := by
  decide

end Igloo
